import Mathlib

/-!
Verification of the gym-memo PR-detection core.

Shallow embedding of the computational core of `src/app.py` (a workout
logging dashboard): the Epley one-rep-max estimator, the per-day record
(PR) analysis, the previous-session lookup, the session aggregation used
for trend charts, and the automatic set-number assignment.

Modelling conventions:
* weights and estimated-max values are rationals (`ℚ`), standing for the
  source's IEEE doubles computed exactly; `pandas` `NaN` / missing values
  are `Option.none`;
* calendar dates are `Nat` (only their order matters);
* a dataframe of workout rows is a `List Obs`;
* `pandas` aggregations that skip `NaN` (`Series.max`, `idxmax`,
  `dropna`) are embedded with `List.filterMap` over the optional values.
-/

/-- One logged exercise set: a row of the `workouts` dataframe produced by
`db_load_sets`.  `weight` and `reps` are optional because the dataframe
columns are nullable (`to_numeric(..., errors="coerce")`). -/
structure Obs where
  date : Nat
  exercise : String
  set_no : Nat
  weight : Option ℚ
  reps : Option ℤ
  deriving DecidableEq, Repr

/-- Tolerance constant `EPS = 0.1` for the PR decision (src/app.py line 36). -/
def EPS : ℚ := 1 / 10

/-- Embeds `est_1rm_epley(weight, reps)` (src/app.py lines 39–43): returns
`none` when weight or reps is missing or `reps <= 0`, otherwise the Epley
estimate `weight * (1 + reps / 30)`. -/
def est_1rm_epley (weight : Option ℚ) (reps : Option ℤ) : Option ℚ :=
  match weight, reps with
  | some w, some r => if r ≤ 0 then none else some (w * (1 + (r : ℚ) / 30))
  | _, _ => none

/-- The derived `e1rm` column: the estimator applied to a row's weight and
reps (src/app.py line 193 and the repeated `df.apply` calls). -/
def e1rm (o : Obs) : Option ℚ := est_1rm_epley o.weight o.reps

/-- Maximum of a list, `none` on the empty list.  Embeds `pandas`
`Series.max` applied to the non-null entries of a column. -/
def listMax {α : Type} [LinearOrder α] : List α → Option α
  | [] => none
  | x :: xs =>
    match listMax xs with
    | none => some x
    | some m => some (max x m)

/-- Ordering of rows by `set_no`, used to embed `sort_values("set_no")`. -/
def leSet (a b : Obs) : Prop := a.set_no ≤ b.set_no

instance : DecidableRel leSet := fun a b => inferInstanceAs (Decidable (a.set_no ≤ b.set_no))

instance : IsTotal Obs leSet := ⟨fun a b => Nat.le_total a.set_no b.set_no⟩

instance : IsTrans Obs leSet := ⟨fun _ _ _ h1 h2 => Nat.le_trans h1 h2⟩

/-- The rows of the session at `(d, ex)`:
`today_sets[today_sets["exercise"] == ex]` where
`today_sets = sets[sets["date"] == day]` (src/app.py lines 466, 482),
before sorting.  This embeds the selection on a data-bearing (typed)
frame; on the column-less frame of a truly empty collection, line 466
itself raises `KeyError`, which is modelled separately by
`prev_mask_step`. -/
def sessionObs (obs : List Obs) (d : Nat) (ex : String) : List Obs :=
  obs.filter (fun o => decide (o.date = d ∧ o.exercise = ex))

/-- Embeds `ex_df = today_sets[today_sets["exercise"] == ex].sort_values("set_no")`
(src/app.py line 482). -/
def ex_df (obs : List Obs) (d : Nat) (ex : String) : List Obs :=
  List.insertionSort leSet (sessionObs obs d ex)

/-- Embeds `max_e1rm = ex_df["e1rm"].max()` (src/app.py line 485): the
session's best estimated max; `pandas` `max` skips `NaN`, and an all-`NaN`
column yields `NaN`, embedded as `none`. -/
def max_e1rm (obs : List Obs) (d : Nat) (ex : String) : Option ℚ :=
  listMax ((ex_df obs d ex).filterMap e1rm)

/-- Embeds `best_idx = ex_df["e1rm"].idxmax()` (src/app.py line 493): the
first row of the `set_no`-sorted session attaining the maximal estimated
max (`idxmax` skips `NaN` and returns the first attaining label); `none`
when no row has a defined estimated max. -/
def best_idx (obs : List Obs) (d : Nat) (ex : String) : Option Obs :=
  match max_e1rm obs d ex with
  | none => none
  | some v => (ex_df obs d ex).find? (fun o => decide (e1rm o = some v))

/-- The valid historical estimated-max values for `ex` before `d`:
`history = sets[sets["date"] < day]` restricted to exercise `ex` with the
`NaN` estimates dropped (src/app.py lines 472, 475). -/
def histVals (obs : List Obs) (d : Nat) (ex : String) : List ℚ :=
  (obs.filter (fun o => decide (o.date < d ∧ o.exercise = ex))).filterMap e1rm

/-- Embeds `hist_best_val` for exercise `ex` (src/app.py lines 475–479,
489): `history.dropna(subset=["e1rm"]).sort_values(["exercise","e1rm"],
ascending=[True, False]).groupby("exercise").first()` takes, per exercise,
the largest non-`NaN` `e1rm` in the history, and line 489 yields `None`
when `ex` has no such row.  Embedded as the maximum of `histVals`. -/
def best_hist (obs : List Obs) (d : Nat) (ex : String) : Option ℚ :=
  listMax (histVals obs d ex)

/-- Embeds `is_pr_day = (hist_best_val is None) or
(max_e1rm > (hist_best_val + EPS))` (src/app.py line 491).  In Python,
`NaN > x` is `False`, so a defined historical best together with an
undefined session best gives `False`. -/
def is_pr_day (obs : List Obs) (d : Nat) (ex : String) : Bool :=
  match best_hist obs d ex, max_e1rm obs d ex with
  | none, _ => true
  | some _, none => false
  | some h, some m => decide (h + EPS < m)

/-- The record analysis for `(d, ex)` as the view code reports it: the
per-exercise loop (src/app.py line 481) runs only for exercises present in
`today_sets`, so nothing is reported when the session is empty. -/
def analyzeDay (obs : List Obs) (d : Nat) (ex : String) :
    Option (Option ℚ × Bool × Option Obs) :=
  match sessionObs obs d ex with
  | [] => none
  | _ :: _ => some (max_e1rm obs d ex, is_pr_day obs d ex, best_idx obs d ex)

/-- The session's best value computed on the unsorted rows; used to state
the spec-side grouping of the historical best. -/
def session_best (obs : List Obs) (d : Nat) (ex : String) : Option ℚ :=
  listMax ((sessionObs obs d ex).filterMap e1rm)

/-- The distinct dates of prior sessions of `ex` before `d`. -/
def histSessionDates (obs : List Obs) (d : Nat) (ex : String) : List Nat :=
  ((obs.filter (fun o => decide (o.date < d ∧ o.exercise = ex))).map Obs.date).dedup

/-- Follows the spec's wording for the historical best: the maximum, over
all sessions of `ex` dated strictly before `d`, of that session's best
estimated max, with valueless sessions contributing nothing. -/
def histBestSpec (obs : List Obs) (d : Nat) (ex : String) : Option ℚ :=
  listMax ((histSessionDates obs d ex).filterMap (fun p => session_best obs p ex))

/-- Embeds the guarded previous-session block (src/app.py lines 350–364):
`prev_mask = (exercise matches) & (date < d)`; when the mask is nonempty,
`prev_day = mask.date.max()`, `prev_df` is the rows of `(exercise, prev_day)`
sorted by `set_no`, and `prev_best = prev_df["1RM(kg)"].max()`.  This
embeds the block's value computation on a data-bearing (typed) frame; on
the column-less frame of a truly empty collection, line 350 itself raises
`KeyError`, which is modelled separately by `prev_mask_step`. -/
def prevBlockA (obs : List Obs) (d : Nat) (ex : String) :
    Option (Nat × List Obs × Option ℚ) :=
  let prior := obs.filter (fun o => decide (o.exercise = ex ∧ o.date < d))
  match listMax (prior.map Obs.date) with
  | none => none
  | some p =>
    let rows := List.insertionSort leSet
      (obs.filter (fun o => decide (o.exercise = ex ∧ o.date = p)))
    some (p, rows, listMax (rows.filterMap e1rm))

/-- Embeds the duplicated unconditional previous-session block
(src/app.py lines 370–386), transcribed from that block's own text. -/
def prevBlockB (obs : List Obs) (d : Nat) (ex : String) :
    Option (Nat × List Obs × Option ℚ) :=
  let prior := obs.filter (fun o => decide (o.exercise = ex ∧ o.date < d))
  match listMax (prior.map Obs.date) with
  | none => none
  | some p =>
    let rows := List.insertionSort leSet
      (obs.filter (fun o => decide (o.exercise = ex ∧ o.date = p)))
    some (p, rows, listMax (rows.filterMap e1rm))

/-- The canonical previous-session lookup (spec §4.2.6): the most recent
date strictly before `d` carrying an observation of `ex`, with that
date's rows sorted by `set_no`. -/
def prevSession (obs : List Obs) (d : Nat) (ex : String) :
    Option (Nat × List Obs) :=
  (prevBlockA obs d ex).map (fun r => (r.1, r.2.1))

/-- The rows surviving `dropna(subset=["e1rm"])` (src/app.py lines 560, 592):
observations with a defined estimated max. -/
def aggValid (obs : List Obs) : List Obs :=
  obs.filter (fun o => (e1rm o).isSome)

/-- The distinct `(date, exercise)` keys of the surviving rows, i.e. the
groups formed by `groupby(["date","exercise"])`. -/
def aggKeys (obs : List Obs) : List (Nat × String) :=
  ((aggValid obs).map (fun o => (o.date, o.exercise))).dedup

/-- The aggregated value of one group: `["e1rm"].max()` over the surviving
rows of the key. -/
def aggVal (obs : List Obs) (k : Nat × String) : Option ℚ :=
  listMax (((aggValid obs).filter
    (fun o => decide (o.date = k.1 ∧ o.exercise = k.2))).filterMap e1rm)

/-- Session aggregation (src/app.py lines 560–562 and 592–594):
`sets.dropna(subset=["e1rm"]).groupby(["date","exercise"])["e1rm"].max()`,
one row per `(date, exercise)` key of the surviving rows, carrying the
group's maximal estimated max. -/
def sessionAgg (obs : List Obs) : List ((Nat × String) × ℚ) :=
  (aggKeys obs).filterMap (fun k => (aggVal obs k).map (fun v => (k, v)))

/-- Automatic set numbering (src/app.py lines 398–404):
`cur_max = to_numeric(exist["set_no"]).max()` over the rows of
`(date, exercise)` and `next_set_no = cur_max + 1`, or `1` when the group
is empty. -/
def next_set_no (obs : List Obs) (d : Nat) (ex : String) : Nat :=
  match listMax ((sessionObs obs d ex).map Obs.set_no) with
  | none => 1
  | some m => m + 1

/-- Models `db_load_sets` (src/app.py lines 181–194) at the frame level:
when the query returns no rows, line 184 returns the raw
`pd.DataFrame([])` — a column-less frame — before any typed columns are
created; `none` stands for that column-less frame, `some rows` for the
typed frame carrying the rows. -/
def db_load_sets (rows : List Obs) : Option (List Obs) :=
  if rows.isEmpty then none else some rows

/-- Models the first step of the previous-session blocks, the column
access in `prev_mask = (sets["exercise"] == exercise) & (sets["date"] < date)`
(src/app.py lines 350 and 370; line 466 accesses `sets["date"]` the same
way): on the column-less frame of an empty collection, `pandas` raises
`KeyError` — the `not sets.empty` guard on line 351 only runs afterwards —
modelled as `Except.error`; on a typed frame the mask selection succeeds
and yields the prior rows of the exercise. -/
def prev_mask_step (rows : List Obs) (d : Nat) (ex : String) :
    Except String (List Obs) :=
  match db_load_sets rows with
  | none => Except.error "KeyError: exercise"
  | some sets =>
    Except.ok (sets.filter (fun o => decide (o.exercise = ex ∧ o.date < d)))

/-- Sample row: the spec's tie-break example, set 1, 100 kg × 5 reps. -/
def oA : Obs := ⟨0, "Bench", 1, some 100, some 5⟩

/-- Sample row: the spec's tie-break example, set 2, 100 kg × 5 reps. -/
def oB : Obs := ⟨0, "Bench", 2, some 100, some 5⟩

/-- Sample row of a later session of the same exercise. -/
def oC : Obs := ⟨1, "Bench", 1, some 130, some 5⟩

/-- Sample row of a different exercise. -/
def oD : Obs := ⟨2, "Squat", 1, some 90, some 8⟩

/-- Sample row with a missing weight, hence an undefined estimated max. -/
def oBad : Obs := ⟨1, "Bench", 3, none, some 5⟩

/-- Sample observation collection used by the witnesses. -/
def sampleSets : List Obs := [oA, oB, oC, oD]

/-- The expected previous-session rows for `sampleSets` at date 2. -/
def prevRows : List Obs := [oC]

theorem listMax_nil {α : Type} [LinearOrder α] : listMax ([] : List α) = none := rfl

theorem listMax_cons {α : Type} [LinearOrder α] (x : α) (xs : List α) :
    listMax (x :: xs) = match listMax xs with
      | none => some x
      | some m => some (max x m) := rfl

theorem listMax_eq_none_iff {α : Type} [LinearOrder α] {l : List α} :
    listMax l = none ↔ l = [] := by
  cases l with
  | nil => simp [listMax]
  | cons x xs =>
    rw [listMax_cons]
    cases h : listMax xs <;> simp

theorem listMax_mem {α : Type} [LinearOrder α] {l : List α} {m : α}
    (h : listMax l = some m) : m ∈ l := by
  induction l generalizing m with
  | nil => simp [listMax] at h
  | cons x xs ih =>
    rw [listMax_cons] at h
    cases hx : listMax xs with
    | none =>
      rw [hx] at h
      simp only [Option.some.injEq] at h
      subst h; exact List.mem_cons_self x xs
    | some m2 =>
      rw [hx] at h
      simp only [Option.some.injEq] at h
      subst h
      rcases max_choice x m2 with h1 | h1 <;> rw [h1]
      · exact List.mem_cons_self x xs
      · exact List.mem_cons_of_mem x (ih hx)

theorem listMax_le {α : Type} [LinearOrder α] {l : List α} {m : α}
    (h : listMax l = some m) : ∀ x ∈ l, x ≤ m := by
  induction l generalizing m with
  | nil => simp
  | cons y ys ih =>
    rw [listMax_cons] at h
    cases hy : listMax ys with
    | none =>
      rw [hy] at h
      simp only [Option.some.injEq] at h
      subst h
      intro x hx
      rcases List.mem_cons.mp hx with h1 | h1
      · exact h1.le
      · exact absurd h1 (by simp [listMax_eq_none_iff.mp hy])
    | some m2 =>
      rw [hy] at h
      simp only [Option.some.injEq] at h
      subst h
      intro x hx
      rcases List.mem_cons.mp hx with h1 | h1
      · exact h1 ▸ le_max_left _ _
      · exact le_trans (ih hy x h1) (le_max_right _ _)

theorem listMax_eq_some_iff {α : Type} [LinearOrder α] {l : List α} {m : α} :
    listMax l = some m ↔ m ∈ l ∧ ∀ x ∈ l, x ≤ m := by
  constructor
  · intro h; exact ⟨listMax_mem h, listMax_le h⟩
  · rintro ⟨hm, hb⟩
    cases h : listMax l with
    | none => exact absurd (listMax_eq_none_iff.mp h ▸ hm) (List.not_mem_nil m)
    | some m2 =>
      have h1 : m2 ≤ m := hb m2 (listMax_mem h)
      have h2 : m ≤ m2 := listMax_le h m hm
      rw [le_antisymm h1 h2]

theorem listMax_exists_of_mem {α : Type} [LinearOrder α] {l : List α} {x : α}
    (hx : x ∈ l) : ∃ m, listMax l = some m ∧ x ≤ m := by
  cases h : listMax l with
  | none => exact absurd (listMax_eq_none_iff.mp h ▸ hx) (List.not_mem_nil x)
  | some m => exact ⟨m, rfl, listMax_le h x hx⟩

/-- The value of `listMax` only depends on the membership set of the list. -/
theorem listMax_congr {α : Type} [LinearOrder α] {A B : List α}
    (h : ∀ x, x ∈ A ↔ x ∈ B) : listMax A = listMax B := by
  cases hA : listMax A with
  | none =>
    have : B = [] := by
      rcases listMax_eq_none_iff.mp hA with rfl
      exact List.eq_nil_iff_forall_not_mem.mpr
        (fun x hx => absurd ((h x).mpr hx) (List.not_mem_nil x))
    rw [this, listMax_nil]
  | some m =>
    symm
    rw [listMax_eq_some_iff]
    exact ⟨(h m).mp (listMax_mem hA), fun x hx => listMax_le hA x ((h x).mpr hx)⟩

/-- Two mutually cofinal lists (every element of one is dominated by an
element of the other) have the same `listMax`. -/
theorem listMax_eq_of_cofinal {α : Type} [LinearOrder α] {A B : List α}
    (hAB : ∀ x ∈ A, ∃ y ∈ B, x ≤ y) (hBA : ∀ y ∈ B, ∃ x ∈ A, y ≤ x) :
    listMax A = listMax B := by
  cases hA : listMax A with
  | none =>
    rcases listMax_eq_none_iff.mp hA with rfl
    have : B = [] := by
      refine List.eq_nil_iff_forall_not_mem.mpr (fun y hy => ?_)
      rcases hBA y hy with ⟨x, hx, _⟩
      exact (List.not_mem_nil x hx).elim
    rw [this, listMax_nil]
  | some m =>
    symm
    rw [listMax_eq_some_iff]
    rcases hAB m (listMax_mem hA) with ⟨y, hy, hmy⟩
    have hym : y ≤ m := by
      rcases hBA y hy with ⟨x, hx, hyx⟩
      exact le_trans hyx (listMax_le hA x hx)
    refine ⟨le_antisymm hym hmy ▸ hy, fun z hz => ?_⟩
    rcases hBA z hz with ⟨x, hx, hzx⟩
    exact le_trans hzx (listMax_le hA x hx)

theorem mem_sessionObs {obs : List Obs} {d : Nat} {ex : String} {o : Obs} :
    o ∈ sessionObs obs d ex ↔ o ∈ obs ∧ o.date = d ∧ o.exercise = ex := by
  simp [sessionObs, List.mem_filter]

theorem mem_ex_df {obs : List Obs} {d : Nat} {ex : String} {o : Obs} :
    o ∈ ex_df obs d ex ↔ o ∈ sessionObs obs d ex := by
  simp [ex_df, List.mem_insertionSort]

/-- Sorting the session does not change its best value. -/
theorem max_e1rm_eq_session_best (obs : List Obs) (d : Nat) (ex : String) :
    max_e1rm obs d ex = session_best obs d ex := by
  unfold max_e1rm session_best
  refine listMax_congr (fun x => ?_)
  simp only [List.mem_filterMap]
  constructor
  · rintro ⟨o, ho, he⟩; exact ⟨o, mem_ex_df.mp ho, he⟩
  · rintro ⟨o, ho, he⟩; exact ⟨o, mem_ex_df.mpr ho, he⟩

/-- On a list sorted by `set_no`, the first row satisfying a predicate has
a `set_no` below that of every row satisfying it. -/
theorem find?_sorted_min {l : List Obs} (hs : List.Sorted leSet l)
    {p : Obs → Bool} {o : Obs} (h : l.find? p = some o) :
    ∀ o2 ∈ l, p o2 = true → o.set_no ≤ o2.set_no := by
  induction l with
  | nil => simp at h
  | cons x xs ih =>
    rcases List.sorted_cons.mp hs with ⟨hx, hxs⟩
    by_cases hp : p x = true
    · rw [List.find?_cons_of_pos _ hp] at h
      injection h with h; subst h
      intro o2 ho2 _
      rcases List.mem_cons.mp ho2 with h1 | h1
      · rw [h1]
      · exact hx o2 h1
    · rw [List.find?_cons_of_neg _ hp] at h
      intro o2 ho2 hpo2
      rcases List.mem_cons.mp ho2 with h1 | h1
      · exact absurd (h1 ▸ hpo2) hp
      · exact ih hxs h o2 h1 hpo2

/-- C3 — Estimator contract: `est_1rm_epley` is undefined exactly when the
weight is missing, the reps are missing, or the reps are nonpositive; for
defined `weight ≥ 0` and integer `reps ≥ 1` it equals
`weight * (1 + reps / 30)` (exact rational arithmetic, hence within any
floating-point tolerance), and in particular maps zero weight to zero. -/
theorem est_1rm_epley_contract : ∀ (w : Option ℚ) (r : Option ℤ),
    (est_1rm_epley w r = none ↔ w = none ∨ r = none ∨ ∃ n, r = some n ∧ n ≤ 0) ∧
    (∀ q n, w = some q → r = some n → 0 ≤ q → 1 ≤ n →
      est_1rm_epley w r = some (q * (1 + (n : ℚ) / 30))) ∧
    (∀ n : ℤ, 1 ≤ n → est_1rm_epley (some 0) (some n) = some 0) := by
  intro w r
  refine ⟨?_, ?_, ?_⟩
  · cases w with
    | none => simp [est_1rm_epley]
    | some q =>
      cases r with
      | none => simp [est_1rm_epley]
      | some n =>
        by_cases h : n ≤ 0 <;> simp [est_1rm_epley, h]
  · rintro q n rfl rfl _ hn
    rw [est_1rm_epley, if_neg (by omega)]
  · intro n hn
    rw [est_1rm_epley, if_neg (by omega), zero_mul]

theorem est_1rm_epley_contract_witness :
    est_1rm_epley (some 100) (some 5) = some (100 * (1 + (5 : ℚ) / 30)) :=
  (est_1rm_epley_contract (some 100) (some 5)).2.1 100 5 rfl rfl
    (by norm_num) (by norm_num)

/-- C10 — Estimator monotonicity: for fixed weight `q > 0` the defined
estimate is strictly increasing in the rep count, and for `q ≥ 0` and
`reps ≥ 1` the estimate is at least the lifted weight, with equality
exactly when the weight is zero. -/
theorem est_1rm_epley_mono : ∀ (q : ℚ) (n m : ℤ),
    (0 < q → 1 ≤ n → n < m →
      ∃ v w, est_1rm_epley (some q) (some n) = some v ∧
        est_1rm_epley (some q) (some m) = some w ∧ v < w) ∧
    (0 ≤ q → 1 ≤ n →
      ∃ v, est_1rm_epley (some q) (some n) = some v ∧ q ≤ v ∧ (v = q ↔ q = 0)) := by
  intro q n m
  constructor
  · intro hq hn hnm
    refine ⟨q * (1 + (n : ℚ) / 30), q * (1 + (m : ℚ) / 30),
      by rw [est_1rm_epley, if_neg (by omega)],
      by rw [est_1rm_epley, if_neg (by omega)], ?_⟩
    have hc : (n : ℚ) < (m : ℚ) := by exact_mod_cast hnm
    have := mul_lt_mul_of_pos_left hc hq
    nlinarith [this]
  · intro hq hn
    refine ⟨q * (1 + (n : ℚ) / 30),
      by rw [est_1rm_epley, if_neg (by omega)], ?_, ?_⟩
    · have hc : (1 : ℚ) ≤ (n : ℚ) := by exact_mod_cast hn
      nlinarith [mul_le_mul_of_nonneg_left hc hq]
    · constructor
      · intro h
        have hc : q * (n : ℚ) = 0 := by linear_combination 30 * h
        rcases mul_eq_zero.mp hc with h1 | h1
        · exact h1
        · exfalso
          have : (n : ℤ) = 0 := by exact_mod_cast h1
          omega
      · rintro rfl; ring

theorem est_1rm_epley_mono_witness :
    ∃ v w, est_1rm_epley (some 100) (some 5) = some v ∧
      est_1rm_epley (some 100) (some 8) = some w ∧ v < w :=
  (est_1rm_epley_mono 100 5 8).1 (by norm_num) (by norm_num) (by norm_num)

/-- C1 — Record flag: `is_pr_day` is `true` exactly when the historical
best for the exercise is undefined (first-ever session), or the target
date's session best exists and exceeds the historical best by more than
the tolerance `0.1`; in every other case — in particular when the
historical best is defined but the session best is undefined — it is
`false`. -/
theorem is_pr_day_spec : ∀ (obs : List Obs) (d : Nat) (ex : String),
    is_pr_day obs d ex = true ↔
      best_hist obs d ex = none ∨
      ∃ h m, best_hist obs d ex = some h ∧ max_e1rm obs d ex = some m ∧
        h + 1 / 10 < m := by
  intro obs d ex
  unfold is_pr_day
  cases hb : best_hist obs d ex with
  | none => simp
  | some h =>
    cases hm : max_e1rm obs d ex with
    | none => simp
    | some m => simp [EPS]

theorem is_pr_day_spec_witness : is_pr_day [] 0 "Bench" = true :=
  (is_pr_day_spec [] 0 "Bench").mpr (Or.inl rfl)

/-- C2 — Session-best tie-break: whenever the session at `(d, ex)` has an
observation with a defined estimated max, exactly one observation is
designated (`best_idx` is a function, hence deterministic, and returns
`some`); the designated observation belongs to the session, attains the
session's maximal estimated max, and has a `set_no` no greater than that
of any other observation attaining the maximum. -/
theorem best_idx_tie_break : ∀ (obs : List Obs) (d : Nat) (ex : String),
    (∀ v, max_e1rm obs d ex = some v → ∃ o, best_idx obs d ex = some o) ∧
    (∀ o, best_idx obs d ex = some o →
      o ∈ sessionObs obs d ex ∧
      e1rm o = max_e1rm obs d ex ∧
      ∀ o2 ∈ sessionObs obs d ex, e1rm o2 = max_e1rm obs d ex →
        o.set_no ≤ o2.set_no) := by
  intro obs d ex
  constructor
  · intro v hv
    have hvmem : v ∈ (ex_df obs d ex).filterMap e1rm := listMax_mem hv
    rcases List.mem_filterMap.mp hvmem with ⟨o, ho, he⟩
    cases hf : (ex_df obs d ex).find? (fun o => decide (e1rm o = some v)) with
    | none =>
      exact absurd (decide_eq_true he)
        (List.find?_eq_none.mp hf o ho)
    | some o2 =>
      refine ⟨o2, ?_⟩
      rw [best_idx, hv]
      exact hf
  · intro o ho
    cases hv : max_e1rm obs d ex with
    | none => simp [best_idx, hv] at ho
    | some v =>
      simp only [best_idx, hv] at ho
      have homem : o ∈ ex_df obs d ex := List.mem_of_find?_eq_some ho
      have hoe : e1rm o = some v := by simpa using List.find?_some ho
      refine ⟨mem_ex_df.mp homem, hoe, ?_⟩
      intro o2 ho2 he2
      refine find?_sorted_min (List.sorted_insertionSort leSet _) ho o2
        (mem_ex_df.mpr ho2) ?_
      exact decide_eq_true he2

theorem best_idx_tie_break_witness :
    oA.set_no ≤ oB.set_no :=
  (((best_idx_tie_break [oA, oB] 0 "Bench").2 oA (by
      norm_num [best_idx, max_e1rm, ex_df, sessionObs, oA, oB, e1rm,
        est_1rm_epley, listMax, List.insertionSort, List.orderedInsert, leSet,
        List.find?])).2.2) oB
    (by norm_num [sessionObs, oA, oB])
    (by norm_num [max_e1rm, ex_df, sessionObs, oA, oB, e1rm, est_1rm_epley,
        listMax, List.insertionSort, List.orderedInsert, leSet])

/-- C4 — Historical best: the per-exercise maximum over all valid prior
estimated-max values (`best_hist`, as the source computes it) equals the
maximum over prior sessions of each session's best value
(`histBestSpec`, as the spec phrases it); observations with undefined
estimates are ignored, and the result is undefined exactly when no prior
observation of the exercise has a defined estimate. -/
theorem best_hist_grouping : ∀ (obs : List Obs) (d : Nat) (ex : String),
    best_hist obs d ex = histBestSpec obs d ex ∧
    (best_hist obs d ex = none ↔
      ∀ o ∈ obs, o.date < d → o.exercise = ex → e1rm o = none) := by
  intro obs d ex
  constructor
  · unfold best_hist histBestSpec
    refine listMax_eq_of_cofinal ?_ ?_
    · intro x hx
      rcases List.mem_filterMap.mp hx with ⟨o, hof, he⟩
      rcases List.mem_filter.mp hof with ⟨hoo, hop⟩
      rcases of_decide_eq_true hop with ⟨hd, hex⟩
      have hdate : o.date ∈ histSessionDates obs d ex := by
        rw [histSessionDates, List.mem_dedup]
        exact List.mem_map.mpr ⟨o, hof, rfl⟩
      have hxmem : x ∈ (sessionObs obs o.date ex).filterMap e1rm := by
        refine List.mem_filterMap.mpr ⟨o, ?_, he⟩
        exact List.mem_filter.mpr ⟨hoo, decide_eq_true ⟨rfl, hex⟩⟩
      rcases listMax_exists_of_mem hxmem with ⟨mv, hmv, hxle⟩
      refine ⟨mv, ?_, hxle⟩
      exact List.mem_filterMap.mpr ⟨o.date, hdate, hmv⟩
    · intro y hy
      rcases List.mem_filterMap.mp hy with ⟨p, hp, hsb⟩
      have hymem : y ∈ (sessionObs obs p ex).filterMap e1rm :=
        listMax_mem hsb
      rcases List.mem_filterMap.mp hymem with ⟨o, hos, he⟩
      rcases mem_sessionObs.mp hos with ⟨hoo, hod, hex⟩
      have hpd : p < d := by
        rw [histSessionDates, List.mem_dedup] at hp
        rcases List.mem_map.mp hp with ⟨o2, ho2f, ho2d⟩
        rcases of_decide_eq_true (List.mem_filter.mp ho2f).2 with ⟨h2, _⟩
        exact ho2d ▸ h2
      refine ⟨y, List.mem_filterMap.mpr ⟨o, ?_, he⟩, le_refl y⟩
      exact List.mem_filter.mpr ⟨hoo, decide_eq_true ⟨hod ▸ hpd, hex⟩⟩
  · rw [best_hist, listMax_eq_none_iff, histVals, List.filterMap_eq_nil_iff]
    constructor
    · intro h o hoo hod hex
      exact h o (List.mem_filter.mpr ⟨hoo, decide_eq_true ⟨hod, hex⟩⟩)
    · intro h o hof
      rcases List.mem_filter.mp hof with ⟨hoo, hop⟩
      rcases of_decide_eq_true hop with ⟨hd, hex⟩
      exact h o hoo hd hex

theorem best_hist_grouping_witness :
    best_hist sampleSets 2 "Bench" = histBestSpec sampleSets 2 "Bench" :=
  (best_hist_grouping sampleSets 2 "Bench").1

/-- C5 — Failure semantics: the claim fails on the truly empty
collection.  `db_load_sets` on an empty result set returns the
column-less frame (line 184), on which the very first column access of
the previous-session lookup (`sets["exercise"]`, line 350 — and likewise
`sets["date"]` on lines 370 and 466 before the record analysis) raises
`KeyError` instead of returning an explicit "none" result; only a
data-bearing frame degrades gracefully, its mask computation succeeding
for every date and exercise, including filters that match nothing. -/
theorem empty_collection_key_error : ∀ (d : Nat) (ex : String),
    db_load_sets ([] : List Obs) = none ∧
    prev_mask_step [] d ex = Except.error "KeyError: exercise" ∧
    ∀ (o : Obs) (rows : List Obs),
      prev_mask_step (o :: rows) d ex =
        Except.ok ((o :: rows).filter
          (fun o2 => decide (o2.exercise = ex ∧ o2.date < d))) := by
  intro d ex
  refine ⟨rfl, rfl, ?_⟩
  intro o rows
  rfl

/-- C7 — Previous-session lookup: the lookup yields `none` exactly when
the exercise has no observation strictly before the reference date;
otherwise it yields the most recent such date, together with rows that
are a permutation of all of that date's observations of the exercise,
sorted by `set_no` ascending. -/
theorem prevSession_lookup : ∀ (obs : List Obs) (d : Nat) (ex : String),
    (prevSession obs d ex = none ↔ ∀ o ∈ obs, o.exercise = ex → ¬ o.date < d) ∧
    (∀ p rows, prevSession obs d ex = some (p, rows) →
      p < d ∧
      (∃ o ∈ obs, o.exercise = ex ∧ o.date = p) ∧
      (∀ o ∈ obs, o.exercise = ex → o.date < d → o.date ≤ p) ∧
      rows.Perm (obs.filter (fun o => decide (o.exercise = ex ∧ o.date = p))) ∧
      rows.Sorted leSet) := by
  intro obs d ex
  constructor
  · cases hm : listMax ((obs.filter
        (fun o => decide (o.exercise = ex ∧ o.date < d))).map Obs.date) with
    | none =>
      have hfil := List.map_eq_nil_iff.mp (listMax_eq_none_iff.mp hm)
      have hall : ∀ o ∈ obs, o.exercise = ex → ¬ o.date < d := by
        intro o ho hex hd
        exact List.filter_eq_nil_iff.mp hfil o ho (decide_eq_true ⟨hex, hd⟩)
      simp only [prevSession, prevBlockA, hm, Option.map_none']
      exact iff_of_true trivial hall
    | some p =>
      rcases List.mem_map.mp (listMax_mem hm) with ⟨o, hof, hod⟩
      rcases List.mem_filter.mp hof with ⟨hoo, hop⟩
      rcases of_decide_eq_true hop with ⟨hex, hd⟩
      refine iff_of_false ?_ (fun hall => hall o hoo hex hd)
      simp only [prevSession, prevBlockA, hm, Option.map_some']
      exact Option.some_ne_none _
  · intro p rows hpr
    cases hm : listMax ((obs.filter
        (fun o => decide (o.exercise = ex ∧ o.date < d))).map Obs.date) with
    | none =>
      simp only [prevSession, prevBlockA, hm, Option.map_none'] at hpr
      exact Option.noConfusion hpr
    | some p2 =>
      simp only [prevSession, prevBlockA, hm, Option.map_some'] at hpr
      rw [Option.some.injEq] at hpr
      have hp2 : p2 = p := congrArg Prod.fst hpr
      have hrows : List.insertionSort leSet (obs.filter
          (fun o => decide (o.exercise = ex ∧ o.date = p2))) = rows :=
        congrArg Prod.snd hpr
      subst hp2
      rcases List.mem_map.mp (listMax_mem hm) with ⟨o, hof, hod⟩
      rcases List.mem_filter.mp hof with ⟨hoo, hop⟩
      rcases of_decide_eq_true hop with ⟨hex, hd⟩
      refine ⟨hod ▸ hd, ⟨o, hoo, hex, hod⟩, ?_, ?_, ?_⟩
      · intro o2 ho2 hex2 hd2
        refine listMax_le hm o2.date ?_
        exact List.mem_map.mpr ⟨o2,
          List.mem_filter.mpr ⟨ho2, decide_eq_true ⟨hex2, hd2⟩⟩, rfl⟩
      · rw [← hrows]
        exact List.perm_insertionSort leSet _
      · rw [← hrows]
        exact List.sorted_insertionSort leSet _

theorem prevSession_lookup_witness :
    (1 : Nat) < 2 ∧ prevRows.Sorted leSet :=
  have h := (prevSession_lookup sampleSets 2 "Bench").2 1 prevRows (by
    norm_num [prevSession, prevBlockA, sampleSets, prevRows, oA, oB, oC, oD,
      listMax, List.insertionSort, List.orderedInsert, leSet])
  ⟨h.1, h.2.2.2.2⟩

/-- C8 — Duplicated-lookup equivalence: the guarded previous-session block
and the unconditional block inside the add-set form perform the same
computation — on every collection, reference date and exercise they select
the same previous date, the same `set_no`-ordered rows, and the same
session-best value. -/
theorem prev_blocks_equal : ∀ (obs : List Obs) (d : Nat) (ex : String),
    prevBlockA obs d ex = prevBlockB obs d ex :=
  fun _ _ _ => rfl

theorem prev_blocks_equal_witness :
    prevBlockA sampleSets 2 "Bench" = prevBlockB sampleSets 2 "Bench" :=
  prev_blocks_equal sampleSets 2 "Bench"

theorem agg_map_fst {α β : Type} (g : α → Option β) (keys : List α) :
    ((keys.filterMap (fun k => (g k).map (fun v => (k, v)))).map Prod.fst)
      = keys.filter (fun k => (g k).isSome) := by
  induction keys with
  | nil => rfl
  | cons k ks ih => cases hg : g k <;> simp [List.filterMap_cons, hg, ih]

theorem sessionAgg_mem {obs : List Obs} {k : Nat × String} {v : ℚ} :
    (k, v) ∈ sessionAgg obs ↔ k ∈ aggKeys obs ∧ aggVal obs k = some v := by
  rw [sessionAgg, List.mem_filterMap]
  constructor
  · rintro ⟨k2, hk2, hf⟩
    rcases Option.map_eq_some'.mp hf with ⟨v2, hv2, hkv⟩
    have h1 : k2 = k := congrArg Prod.fst hkv
    have h2 : v2 = v := congrArg Prod.snd hkv
    subst h1; subst h2
    exact ⟨hk2, hv2⟩
  · rintro ⟨hk, hv⟩
    exact ⟨k, hk, by rw [hv]; rfl⟩

theorem mem_aggKeys {obs : List Obs} {k : Nat × String} :
    k ∈ aggKeys obs ↔
      ∃ o ∈ obs, (e1rm o).isSome ∧ o.date = k.1 ∧ o.exercise = k.2 := by
  rw [aggKeys, List.mem_dedup, List.mem_map]
  constructor
  · rintro ⟨o, hval, rfl⟩
    rcases List.mem_filter.mp hval with ⟨hoo, hv⟩
    exact ⟨o, hoo, by simpa using hv, rfl, rfl⟩
  · rintro ⟨o, hoo, hv, h1, h2⟩
    refine ⟨o, List.mem_filter.mpr ⟨hoo, by simpa using hv⟩, ?_⟩
    exact Prod.ext_iff.mpr ⟨h1, h2⟩

theorem aggVal_eq_session_best (obs : List Obs) (k : Nat × String) :
    aggVal obs k = session_best obs k.1 k.2 := by
  rw [aggVal, session_best]
  refine listMax_congr (fun x => ?_)
  rw [List.mem_filterMap, List.mem_filterMap]
  constructor
  · rintro ⟨o, hof, he⟩
    rcases List.mem_filter.mp hof with ⟨hval, hk⟩
    rcases List.mem_filter.mp hval with ⟨hoo, _⟩
    exact ⟨o, List.mem_filter.mpr ⟨hoo, hk⟩, he⟩
  · rintro ⟨o, hos, he⟩
    rcases List.mem_filter.mp hos with ⟨hoo, hk⟩
    refine ⟨o, List.mem_filter.mpr ⟨List.mem_filter.mpr ⟨hoo, ?_⟩, hk⟩, he⟩
    simp [aggValid, he]

/-- C6 — Session aggregation: the aggregate holds exactly one row per
distinct `(date, exercise)` pair possessing at least one defined estimated
max; each row's value is that group's maximal estimated max; a group whose
observations all lack a value produces no row; and appending an
observation with an undefined estimated max leaves the aggregate
unchanged. -/
theorem sessionAgg_spec : ∀ obs : List Obs,
    ((sessionAgg obs).map Prod.fst).Nodup ∧
    (∀ k : Nat × String,
      (∃ v, (k, v) ∈ sessionAgg obs) ↔
        ∃ o ∈ obs, o.date = k.1 ∧ o.exercise = k.2 ∧ (e1rm o).isSome) ∧
    (∀ (k : Nat × String) (v : ℚ), (k, v) ∈ sessionAgg obs →
      session_best obs k.1 k.2 = some v) ∧
    (∀ o2 : Obs, e1rm o2 = none → sessionAgg (obs ++ [o2]) = sessionAgg obs) := by
  intro obs
  refine ⟨?_, ?_, ?_, ?_⟩
  · rw [sessionAgg, agg_map_fst]
    refine List.Nodup.filter _ ?_
    rw [aggKeys]
    exact List.nodup_dedup _
  · intro k
    constructor
    · rintro ⟨v, hv⟩
      rcases sessionAgg_mem.mp hv with ⟨hk, _⟩
      rcases mem_aggKeys.mp hk with ⟨o, hoo, hsome, h1, h2⟩
      exact ⟨o, hoo, h1, h2, hsome⟩
    · rintro ⟨o, hoo, h1, h2, hsome⟩
      rcases Option.isSome_iff_exists.mp hsome with ⟨x, hx⟩
      have hk : k ∈ aggKeys obs := mem_aggKeys.mpr ⟨o, hoo, hsome, h1, h2⟩
      have hval : o ∈ aggValid obs :=
        List.mem_filter.mpr ⟨hoo, by simp [hx]⟩
      have hxmem : x ∈ ((aggValid obs).filter
          (fun o => decide (o.date = k.1 ∧ o.exercise = k.2))).filterMap e1rm :=
        List.mem_filterMap.mpr
          ⟨o, List.mem_filter.mpr ⟨hval, decide_eq_true ⟨h1, h2⟩⟩, hx⟩
      rcases listMax_exists_of_mem hxmem with ⟨mv, hmv, _⟩
      exact ⟨mv, sessionAgg_mem.mpr ⟨hk, hmv⟩⟩
  · intro k v hv
    rcases sessionAgg_mem.mp hv with ⟨_, hval⟩
    rw [← aggVal_eq_session_best]
    exact hval
  · intro o2 h
    have hvalid : aggValid (obs ++ [o2]) = aggValid obs := by
      rw [aggValid, aggValid, List.filter_append]
      simp [h]
    simp only [sessionAgg, aggKeys, aggVal, hvalid]

theorem sessionAgg_spec_witness :
    sessionAgg (sampleSets ++ [oBad]) = sessionAgg sampleSets :=
  (sessionAgg_spec sampleSets).2.2.2 oBad rfl

/-- C9 — Automatic set numbering: the next set number is `1` for an empty
`(date, exercise)` group and otherwise exceeds every `set_no` already in
the group; inserting a row numbered this way appends it after the existing
group rows (reassigning none of them) and preserves both distinctness and
strict increase of the group's `set_no` sequence. -/
theorem next_set_no_spec : ∀ (obs : List Obs) (d : Nat) (ex : String),
    (sessionObs obs d ex = [] → next_set_no obs d ex = 1) ∧
    (∀ o ∈ sessionObs obs d ex, o.set_no < next_set_no obs d ex) ∧
    (∀ o2 : Obs, o2.date = d → o2.exercise = ex →
      sessionObs (obs ++ [o2]) d ex = sessionObs obs d ex ++ [o2]) ∧
    (∀ o2 : Obs, o2.date = d → o2.exercise = ex →
      o2.set_no = next_set_no obs d ex →
      ((sessionObs obs d ex).map Obs.set_no).Nodup →
      ((sessionObs (obs ++ [o2]) d ex).map Obs.set_no).Nodup) ∧
    (∀ o2 : Obs, o2.date = d → o2.exercise = ex →
      o2.set_no = next_set_no obs d ex →
      ((sessionObs obs d ex).map Obs.set_no).Sorted (· < ·) →
      ((sessionObs (obs ++ [o2]) d ex).map Obs.set_no).Sorted (· < ·)) := by
  intro obs d ex
  have hlt : ∀ o ∈ sessionObs obs d ex, o.set_no < next_set_no obs d ex := by
    intro o ho
    rcases listMax_exists_of_mem
      (List.mem_map.mpr ⟨o, ho, rfl⟩ :
        o.set_no ∈ (sessionObs obs d ex).map Obs.set_no) with ⟨m, hm, hle⟩
    simp only [next_set_no, hm]
    omega
  have happ : ∀ o2 : Obs, o2.date = d → o2.exercise = ex →
      sessionObs (obs ++ [o2]) d ex = sessionObs obs d ex ++ [o2] := by
    intro o2 h1 h2
    rw [sessionObs, sessionObs, List.filter_append]
    congr 1
    simp [h1, h2]
  refine ⟨?_, hlt, happ, ?_, ?_⟩
  · intro h
    rw [next_set_no, h, List.map_nil, listMax_nil]
  · intro o2 h1 h2 h3 hnd
    rw [happ o2 h1 h2, List.map_append, List.nodup_append]
    refine ⟨hnd, List.nodup_singleton _, ?_⟩
    intro a ha hb
    rcases List.mem_map.mp ha with ⟨o, ho, rfl⟩
    have hao : o.set_no < next_set_no obs d ex := hlt o ho
    have heq : o.set_no = o2.set_no := by simpa using hb
    rw [h3] at heq
    omega
  · intro o2 h1 h2 h3 hs
    rw [happ o2 h1 h2, List.map_append]
    refine List.pairwise_append.mpr ⟨hs, List.pairwise_singleton _ _, ?_⟩
    intro a ha b hb
    rcases List.mem_map.mp ha with ⟨o, ho, rfl⟩
    have hb2 : b = o2.set_no := by simpa using hb
    rw [hb2, h3]
    exact hlt o ho

theorem next_set_no_spec_witness :
    oB.set_no < next_set_no [oA, oB] 0 "Bench" :=
  (next_set_no_spec [oA, oB] 0 "Bench").2.1 oB (by norm_num [sessionObs, oA, oB])
